import Mathlib

/-
Verification of the reinforcement-learning agents of `quad_controller_rl`
(files `agents/ddpg_agent.py` and `agents/dqn_agent.py`): the replay
buffer, the Ornstein-Uhlenbeck noise process, the soft target-network
update, the TD-target computations, the epsilon decay, and the agent
step cycle.

Modelling conventions.  Real-valued quantities of the Python code are
modelled as rationals (ℚ).  The external neural-network library's
predict/train operations are opaque in the source and are modelled as
explicit oracle function parameters; likewise the random sources
(standard-normal draws, the shuffles behind `random.sample`) are passed
in as explicit arguments.  A Python `collections.deque` with a maximum
length is modelled as the list of its elements, oldest first.
-/

namespace QuadRL

/-- Experience record: the namedtuple `Experience(state, action, reward,
next_state, done)` of `ddpg_agent.py` (the DQN agent stores the same
quintuple as a plain tuple).  State and action types are abstract. -/
structure Experience (σ α : Type) where
  state : σ
  action : α
  reward : ℚ
  nextState : σ
  done : Bool
deriving DecidableEq, Repr

/-- Appending to a `collections.deque` with maximum length `maxlen`:
the new element goes to the right and, when the length would exceed
`maxlen`, elements are discarded from the left, i.e. only the last
`maxlen` elements are kept. -/
def dequeAppend {γ : Type} (maxlen : ℕ) (buf : List γ) (x : γ) : List γ :=
  (buf ++ [x]).drop ((buf ++ [x]).length - maxlen)

/-- ReplayBuffer of `ddpg_agent.py`: a deque of experiences with a fixed
maximum length `size`. -/
structure ReplayBuffer (σ α : Type) where
  size : ℕ
  memory : List (Experience σ α)

/-- ReplayBuffer.add: build the `Experience` and append it to the deque. -/
def ReplayBuffer.add {σ α : Type} (b : ReplayBuffer σ α)
    (state : σ) (action : α) (reward : ℚ) (nextState : σ) (done : Bool) :
    ReplayBuffer σ α :=
  { b with memory := dequeAppend b.size b.memory ⟨state, action, reward, nextState, done⟩ }

/-- Convenience: `add` taking the experience as one record. -/
def ReplayBuffer.addExp {σ α : Type} (b : ReplayBuffer σ α) (e : Experience σ α) :
    ReplayBuffer σ α :=
  b.add e.state e.action e.reward e.nextState e.done

/-- ReplayBuffer.sample: `random.sample(memory, batch_size)` draws
`batchSize` elements without replacement, raising an error when the
population is smaller than `batchSize`.  The randomness is modelled by
an oracle `shuffled`, intended to be a permutation of `memory`; the
draw is the first `batchSize` elements of that shuffle, and the error
case is `none`. -/
def ReplayBuffer.sample {σ α : Type} (b : ReplayBuffer σ α) (batchSize : ℕ)
    (shuffled : List (Experience σ α)) : Option (List (Experience σ α)) :=
  if batchSize ≤ b.memory.length then some (shuffled.take batchSize) else none

/-- State of a replay buffer after a sequence of `add` calls starting
from the empty buffer of capacity `cap`. -/
def buildBuffer {σ α : Type} (cap : ℕ) (es : List (Experience σ α)) : ReplayBuffer σ α :=
  es.foldl ReplayBuffer.addExp ⟨cap, []⟩

lemma dequeAppend_drop {γ : Type} (m : ℕ) (xs : List γ) (x : γ) :
    dequeAppend m (xs.drop (xs.length - m)) x = (xs ++ [x]).drop ((xs ++ [x]).length - m) := by
  unfold dequeAppend
  rw [List.drop_append_eq_append_drop, List.drop_append_eq_append_drop, List.drop_drop]
  simp only [List.length_append, List.length_drop, List.length_cons, List.length_nil]
  congr 1
  · congr 1
    omega
  · congr 1
    omega

lemma buildBuffer_size {σ α : Type} (cap : ℕ) (es : List (Experience σ α)) :
    (buildBuffer cap es).size = cap := by
  unfold buildBuffer
  induction es using List.reverseRecOn with
  | nil => rfl
  | append_singleton es e ih =>
      rw [List.foldl_append]
      simpa [ReplayBuffer.addExp, ReplayBuffer.add] using ih

lemma buildBuffer_memory {σ α : Type} (cap : ℕ) (es : List (Experience σ α)) :
    (buildBuffer cap es).memory = es.drop (es.length - cap) := by
  induction es using List.reverseRecOn with
  | nil => simp [buildBuffer]
  | append_singleton es e ih =>
      have hs := buildBuffer_size cap es
      unfold buildBuffer at *
      rw [List.foldl_append, List.foldl_cons, List.foldl_nil]
      show (ReplayBuffer.addExp _ e).memory = _
      rw [ReplayBuffer.addExp, ReplayBuffer.add]
      simp only [hs, ih]
      exact dequeAppend_drop cap es e

/-- Claim C3: stored experiences form an insertion-ordered buffer of
length at most the capacity; the buffer always holds exactly the most
recent `cap` insertions in order (so insertion order is preserved), and
after `cap + 1` inserts the oldest experience has been evicted. -/
theorem replayBuffer_fifo {σ α : Type} (cap : ℕ) (es : List (Experience σ α)) :
    (buildBuffer cap es).memory.length ≤ cap ∧
    (buildBuffer cap es).memory = es.drop (es.length - cap) ∧
    (∀ (e : Experience σ α) (tl : List (Experience σ α)),
      es = e :: tl → es.length = cap + 1 → e ∉ tl →
      e ∉ (buildBuffer cap es).memory) := by
  refine ⟨?_, buildBuffer_memory cap es, ?_⟩
  · rw [buildBuffer_memory]
    simp
    omega
  · rintro e tl rfl hlen hnot
    rw [buildBuffer_memory]
    have h1 : (e :: tl).length - cap = 1 := by omega
    rw [h1]
    simpa using hnot

/-- Witness for C3 at a concrete run: capacity 2, three inserts; the
first insert has been evicted. -/
theorem replayBuffer_fifo_witness :
    (⟨0, 0, 0, 0, false⟩ : Experience ℕ ℕ) ∉
      (buildBuffer 2 [⟨0, 0, 0, 0, false⟩, ⟨1, 1, 0, 1, false⟩, ⟨2, 2, 0, 2, false⟩]).memory := by
  refine (replayBuffer_fifo 2 _).2.2 ⟨0, 0, 0, 0, false⟩ [⟨1, 1, 0, 1, false⟩, ⟨2, 2, 0, 2, false⟩]
    rfl rfl ?_
  intro hmem
  simp [Experience.mk.injEq] at hmem

/-- OUNoise of `ddpg_agent.py`: Ornstein-Uhlenbeck process state.  The
constructor default mu is the zero vector and the initial state is
`ones * mu = mu` elementwise. -/
structure OUNoise where
  size : ℕ
  mu : List ℚ
  theta : ℚ
  sigma : ℚ
  state : List ℚ

/-- OUNoise.reset: set the state back to the mean mu. -/
def OUNoise.reset (n : OUNoise) : OUNoise := { n with state := n.mu }

/-- Elementwise `theta * (mu - x) + sigma * g`, the increment `dx` of
`OUNoise.sample`; the standard-normal draw `g` is an explicit argument. -/
def ouDelta (theta sigma : ℚ) : List ℚ → List ℚ → List ℚ → List ℚ
  | m :: ms, x :: xs, gv :: gs => (theta * (m - x) + sigma * gv) :: ouDelta theta sigma ms xs gs
  | _, _, _ => []

/-- OUNoise.sample: compute `dx = theta * (mu - x) + sigma * randn(len(x))`,
store `x + dx` as the new state, and return it (new process, returned
value). -/
def OUNoise.sample (n : OUNoise) (g : List ℚ) : OUNoise × List ℚ :=
  let x := n.state
  let dx := ouDelta n.theta n.sigma n.mu x g
  let s := List.zipWith (· + ·) x dx
  ({ n with state := s }, s)

lemma ouDelta_length (theta sigma : ℚ) (ms xs gs : List ℚ)
    (h1 : ms.length = xs.length) (h2 : gs.length = xs.length) :
    (ouDelta theta sigma ms xs gs).length = xs.length := by
  induction xs generalizing ms gs with
  | nil =>
      cases ms with
      | nil => cases gs with
        | nil => rfl
        | cons gv gs => simp at h2
      | cons m ms => simp at h1
  | cons x xs ih =>
      cases ms with
      | nil => simp at h1
      | cons m ms =>
          cases gs with
          | nil => simp at h2
          | cons gv gs =>
              simp only [ouDelta, List.length_cons]
              rw [ih ms gs (by simpa using h1) (by simpa using h2)]

lemma ouDelta_getD (theta sigma : ℚ) (ms xs gs : List ℚ) (i : ℕ)
    (h1 : ms.length = xs.length) (h2 : gs.length = xs.length) (hi : i < xs.length) :
    (ouDelta theta sigma ms xs gs).getD i 0 =
      theta * (ms.getD i 0 - xs.getD i 0) + sigma * gs.getD i 0 := by
  induction xs generalizing ms gs i with
  | nil => simp at hi
  | cons x xs ih =>
      cases ms with
      | nil => simp at h1
      | cons m ms =>
          cases gs with
          | nil => simp at h2
          | cons gv gs =>
              cases i with
              | zero => rfl
              | succ j =>
                  simp only [ouDelta, List.getD_cons_succ]
                  exact ih ms gs j (by simpa using h1) (by simpa using h2) (by simpa using hi)

lemma zipWith_getD (f : ℚ → ℚ → ℚ) (a b : List ℚ) (i : ℕ)
    (hi : i < a.length) (hab : b.length = a.length) :
    (List.zipWith f a b).getD i 0 = f (a.getD i 0) (b.getD i 0) := by
  induction a generalizing b i with
  | nil => simp at hi
  | cons x xs ih =>
      cases b with
      | nil => simp at hab
      | cons y ys =>
          cases i with
          | zero => rfl
          | succ j =>
              simp only [List.zipWith_cons_cons, List.getD_cons_succ]
              exact ih ys j (by simpa using hi) (by simpa using hab)

/-- Claim C4: each sample call replaces the state with
`state + (theta * (mu - state) + sigma * g)` elementwise and returns
exactly the new state; reset restores the state to mu, and a reset
followed immediately by a sample returns `mu + delta` where `delta` is
one update-step increment evaluated at `state = mu`. -/
theorem ouNoise_sample_spec (n : OUNoise) (g : List ℚ)
    (hmu : n.mu.length = n.state.length) (hg : g.length = n.state.length) :
    (n.sample g).1.state = (n.sample g).2 ∧
    (∀ i, i < n.state.length →
      ((n.sample g).2).getD i 0 =
        n.state.getD i 0 +
          (n.theta * (n.mu.getD i 0 - n.state.getD i 0) + n.sigma * g.getD i 0)) ∧
    n.reset.state = n.mu ∧
    (∀ i, i < n.mu.length →
      ((n.reset.sample g).2).getD i 0 =
        n.mu.getD i 0 + (n.theta * (n.mu.getD i 0 - n.mu.getD i 0) + n.sigma * g.getD i 0)) := by
  have key : ∀ (nn : OUNoise) (hmu' : nn.mu.length = nn.state.length)
      (hg' : g.length = nn.state.length) (i : ℕ), i < nn.state.length →
      ((nn.sample g).2).getD i 0 =
        nn.state.getD i 0 +
          (nn.theta * (nn.mu.getD i 0 - nn.state.getD i 0) + nn.sigma * g.getD i 0) := by
    intro nn hmu' hg' i hi
    show (List.zipWith (· + ·) nn.state (ouDelta nn.theta nn.sigma nn.mu nn.state g)).getD i 0 = _
    rw [zipWith_getD _ _ _ i hi (ouDelta_length _ _ _ _ _ hmu' hg'),
      ouDelta_getD _ _ _ _ _ i hmu' hg' hi]
  refine ⟨rfl, key n hmu hg, rfl, ?_⟩
  intro i hi
  exact key n.reset rfl (hg.trans hmu.symm) i hi

/-- Witness for C4: a concrete two-dimensional noise process. -/
theorem ouNoise_sample_spec_witness :
    ((OUNoise.mk 2 [0, 0] (3/20) (3/10) [1, 2]).sample [1, 1]).2.getD 0 0 =
      (1 : ℚ) + (3/20 * (0 - 1) + 3/10 * 1) :=
  (ouNoise_sample_spec (OUNoise.mk 2 [0, 0] (3/20) (3/10) [1, 2]) [1, 1] rfl rfl).2.1 0
    (by decide)

/-- DDPGAgent soft-update coefficient `tau = 0.001`. -/
def DDPG_TAU : ℚ := 1/1000

/-- DDPGAgent.soft_update: `new_weights = tau * local_weights +
(1 - tau) * target_weights`, applied elementwise to the parameter
values (modelled as the flattened list of parameter entries). -/
def softUpdate (tau : ℚ) (localWeights targetWeights : List ℚ) : List ℚ :=
  List.zipWith (fun lw tw => tau * lw + (1 - tau) * tw) localWeights targetWeights

lemma softUpdate_zero (lw tw : List ℚ) (h : tw.length = lw.length) :
    softUpdate 0 lw tw = tw := by
  induction lw generalizing tw with
  | nil => cases tw with
    | nil => rfl
    | cons y ys => simp at h
  | cons x xs ih =>
      cases tw with
      | nil => simp at h
      | cons y ys =>
          show (0 * x + (1 - 0) * y) :: softUpdate 0 xs ys = y :: ys
          rw [ih ys (by simpa using h)]
          norm_num

lemma softUpdate_one (lw tw : List ℚ) (h : tw.length = lw.length) :
    softUpdate 1 lw tw = lw := by
  induction lw generalizing tw with
  | nil => rfl
  | cons x xs ih =>
      cases tw with
      | nil => simp at h
      | cons y ys =>
          show (1 * x + (1 - 1) * y) :: softUpdate 1 xs ys = x :: xs
          rw [ih ys (by simpa using h)]
          norm_num

/-- Claim C2: soft update sets each target parameter elementwise to
`tau * local + (1 - tau) * target`; with tau = 0 the target parameters
are unchanged and with tau = 1 they become the local parameters. -/
theorem softUpdate_spec (tau : ℚ) (lw tw : List ℚ) (h : tw.length = lw.length) :
    (∀ i, i < lw.length →
      (softUpdate tau lw tw).getD i 0 = tau * lw.getD i 0 + (1 - tau) * tw.getD i 0) ∧
    softUpdate 0 lw tw = tw ∧
    softUpdate 1 lw tw = lw := by
  refine ⟨?_, softUpdate_zero lw tw h, softUpdate_one lw tw h⟩
  intro i hi
  exact zipWith_getD _ lw tw i hi h

/-- Witness for C2 on concrete parameter vectors. -/
theorem softUpdate_spec_witness :
    (softUpdate (1/2) [1, 3] [3, 5]).getD 0 0 =
        (1:ℚ)/2 * [(1:ℚ), 3].getD 0 0 + (1 - 1/2) * [(3:ℚ), 5].getD 0 0 ∧
    softUpdate 0 [1, 3] [3, 5] = [3, 5] ∧
    softUpdate 1 [1, 3] [3, 5] = [1, 3] :=
  ⟨(softUpdate_spec (1/2) [1, 3] [3, 5] rfl).1 0 (by decide),
   (softUpdate_spec (1/2) [1, 3] [3, 5] rfl).2.1,
   (softUpdate_spec (1/2) [1, 3] [3, 5] rfl).2.2⟩

/-- DDPGAgent discount factor: the constructor sets `gamma = 0.0`. -/
def DDPG_GAMMA : ℚ := 0

/-- DDPGAgent replay-memory capacity `buffer_size = 100000`. -/
def DDPG_BUFFER_SIZE : ℕ := 100000

/-- DDPGAgent `batch_size = 64`. -/
def DDPG_BATCH_SIZE : ℕ := 64

/-- One row of `q_targets = rewards + gamma * q_target_nexts * (1 - dones)`
in DDPGAgent.learn; the boolean done flag is cast to 0/1 as by the
uint8 conversion in the code. -/
def ddpgQTarget (gamma reward qTargetNext : ℚ) (done : Bool) : ℚ :=
  reward + gamma * qTargetNext * (1 - if done then 1 else 0)

/-- Batch form of the DDPG TD-target computation, row by row over the
rewards, target-critic predictions and done flags of the sampled batch. -/
def ddpgQTargets (gamma : ℚ) : List ℚ → List ℚ → List Bool → List ℚ
  | r :: rs, q :: qs, d :: ds => ddpgQTarget gamma r q d :: ddpgQTargets gamma rs qs ds
  | _, _, _ => []

/-- DQN discount rate `GAMMA = 0.9`. -/
def GAMMA : ℚ := 9/10

/-- DQN exploration floor `EPSILON_MIN = 0.01`. -/
def EPSILON_MIN : ℚ := 1/100

/-- DQN exploration decay `EPSILON_DECAY = 0.996`. -/
def EPSILON_DECAY : ℚ := 249/250

/-- DQNAgent initial exploration rate `epsilon = 3.0`. -/
def EPSILON_INIT : ℚ := 3

/-- DQN replay-memory capacity `MEMORY_SIZE = 10000`. -/
def MEMORY_SIZE : ℕ := 10000

/-- DQN `BATCH_SIZE = 64`. -/
def BATCH_SIZE : ℕ := 64

/-- Maximum entry of a prediction row, as `np.amax`; the row is
nonempty in the code (there is at least one action). -/
def npAmax : List ℚ → ℚ
  | [] => 0
  | x :: xs => xs.foldl max x

/-- Scalar regression target in DQNAgent.replay: `target = reward`,
overwritten with `reward + GAMMA * np.amax(Q(next_state))` when the
transition is not terminal.  The discount is a parameter here so that
gamma-independence of the terminal case can be stated; the code
instantiates it with `GAMMA`. -/
def dqnTarget (gamma reward : ℚ) (predNext : List ℚ) (done : Bool) : ℚ :=
  if done then reward else reward + gamma * npAmax predNext

/-- Target vector in DQNAgent.replay: the network's current prediction
on the state with the taken action's entry overwritten by the scalar
target (`target_f[0][action] = target`). -/
def dqnTargetF (pred : List ℚ) (action : ℕ) (target : ℚ) : List ℚ :=
  pred.set action target

lemma ddpgQTargets_getD (gamma : ℚ) (rs qs : List ℚ) (ds : List Bool) (i : ℕ)
    (hi : i < rs.length) (hq : qs.length = rs.length) (hd : ds.length = rs.length) :
    (ddpgQTargets gamma rs qs ds).getD i 0 =
      rs.getD i 0 + gamma * qs.getD i 0 * (1 - if ds.getD i false then 1 else 0) := by
  induction rs generalizing qs ds i with
  | nil => simp at hi
  | cons r rs ih =>
      cases qs with
      | nil => simp at hq
      | cons q qs =>
          cases ds with
          | nil => simp at hd
          | cons d ds =>
              cases i with
              | zero => rfl
              | succ j =>
                  simp only [ddpgQTargets, List.getD_cons_succ]
                  exact ih qs ds j (by simpa using hi) (by simpa using hq) (by simpa using hd)

/-- Claim C1: the DDPG learning update computes each TD target as
`y = reward + gamma * target_Q * (1 - done)` over the sampled batch,
and the DQN target for a terminal transition equals the reward exactly,
for every value of the discount factor. -/
theorem td_target_spec :
    (∀ (gamma : ℚ) (rs qs : List ℚ) (ds : List Bool) (i : ℕ),
      i < rs.length → qs.length = rs.length → ds.length = rs.length →
      (ddpgQTargets gamma rs qs ds).getD i 0 =
        rs.getD i 0 + gamma * qs.getD i 0 * (1 - if ds.getD i false then 1 else 0)) ∧
    (∀ (gamma reward : ℚ) (predNext : List ℚ),
      dqnTarget gamma reward predNext true = reward) :=
  ⟨fun gamma rs qs ds i hi hq hd => ddpgQTargets_getD gamma rs qs ds i hi hq hd,
   fun _ _ _ => rfl⟩

/-- Witness for C1 on a concrete two-element batch and a concrete
terminal DQN transition. -/
theorem td_target_spec_witness :
    (ddpgQTargets (1/2) [2, 4] [10, 20] [false, true]).getD 0 0 =
        [(2:ℚ), 4].getD 0 0 + 1/2 * [(10:ℚ), 20].getD 0 0 *
          (1 - if [false, true].getD 0 false then 1 else 0) ∧
    dqnTarget 7 5 [1, 2] true = 5 :=
  ⟨td_target_spec.1 (1/2) [2, 4] [10, 20] [false, true] 0 (by decide) rfl rfl,
   td_target_spec.2 7 5 [1, 2]⟩

/-- Claim C9: with the DDPG agent's configured discount `gamma = 0.0`,
the batch of Q targets computed by learn equals the batch of rewards,
whatever the done flags and the target-network predictions are. -/
theorem ddpg_gamma_zero_rewards (rs qs : List ℚ) (ds : List Bool)
    (hq : qs.length = rs.length) (hd : ds.length = rs.length) :
    ddpgQTargets DDPG_GAMMA rs qs ds = rs := by
  induction rs generalizing qs ds with
  | nil =>
      cases qs <;> cases ds <;> rfl
  | cons r rs ih =>
      cases qs with
      | nil => simp at hq
      | cons q qs =>
          cases ds with
          | nil => simp at hd
          | cons d ds =>
              show ddpgQTarget DDPG_GAMMA r q d :: ddpgQTargets DDPG_GAMMA rs qs ds = r :: rs
              rw [ih qs ds (by simpa using hq) (by simpa using hd)]
              unfold ddpgQTarget DDPG_GAMMA
              norm_num

/-- Witness for C9 on a concrete batch. -/
theorem ddpg_gamma_zero_rewards_witness :
    ddpgQTargets DDPG_GAMMA [1, 2] [5, 7] [true, false] = [1, 2] :=
  ddpg_gamma_zero_rewards [1, 2] [5, 7] [true, false] rfl rfl

/-- Claim C8: the DQN regression target vector is the network's current
prediction on the state with exactly the taken action's entry replaced
by the scalar target; all other entries and the length are unchanged. -/
theorem dqn_targetF_spec (pred predNext : List ℚ) (action : ℕ) (gamma reward : ℚ)
    (done : Bool) (ha : action < pred.length) :
    (dqnTargetF pred action (dqnTarget gamma reward predNext done)).length = pred.length ∧
    (∀ i, i < pred.length →
      (dqnTargetF pred action (dqnTarget gamma reward predNext done)).getD i 0 =
        if i = action then dqnTarget gamma reward predNext done else pred.getD i 0) := by
  refine ⟨by simp [dqnTargetF], ?_⟩
  intro i hi
  have hi' : i < (dqnTargetF pred action (dqnTarget gamma reward predNext done)).length := by
    simpa [dqnTargetF] using hi
  unfold dqnTargetF at *
  rw [List.getD_eq_getElem _ _ hi', List.getElem_set, List.getD_eq_getElem _ _ hi]
  by_cases hcase : i = action
  · simp [hcase]
  · simp [hcase, Ne.symm hcase]

/-- Witness for C8 at a concrete prediction vector and action index. -/
theorem dqn_targetF_spec_witness :
    (dqnTargetF [1, 2, 3] 1 (dqnTarget 0 5 [] true)).getD 0 0 =
      if 0 = 1 then dqnTarget 0 5 [] true else [(1:ℚ), 2, 3].getD 0 0 :=
  (dqn_targetF_spec [1, 2, 3] [] 1 0 5 true (by decide)).2 0 (by decide)

/-- Exploration-rate update at the end of DQNAgent.replay:
`if self.epsilon > EPSILON_MIN: self.epsilon *= EPSILON_DECAY`. -/
def epsStep (e : ℚ) : ℚ := if EPSILON_MIN < e then e * EPSILON_DECAY else e

/-- Exploration rate after n replay calls, starting from the
constructor's `epsilon = 3.0`. -/
def epsIter : ℕ → ℚ
  | 0 => EPSILON_INIT
  | n + 1 => epsStep (epsIter n)

lemma epsIter_formula : ∀ n : ℕ, n ≤ 1424 → epsIter n = EPSILON_INIT * EPSILON_DECAY ^ n := by
  intro n
  induction n with
  | zero => intro _; simp [epsIter]
  | succ k ih =>
      intro hk
      have hfk := ih (by omega)
      have hgt : EPSILON_MIN < epsIter k := by
        rw [hfk]
        have hmono : EPSILON_DECAY ^ (1423 : ℕ) ≤ EPSILON_DECAY ^ k :=
          pow_le_pow_of_le_one (by norm_num [EPSILON_DECAY]) (by norm_num [EPSILON_DECAY])
            (by omega)
        have hbase : EPSILON_MIN < EPSILON_INIT * EPSILON_DECAY ^ (1423 : ℕ) := by
          norm_num [EPSILON_MIN, EPSILON_INIT, EPSILON_DECAY]
        calc EPSILON_MIN < EPSILON_INIT * EPSILON_DECAY ^ (1423 : ℕ) := hbase
          _ ≤ EPSILON_INIT * EPSILON_DECAY ^ k := by
              have h3 : (0:ℚ) ≤ EPSILON_INIT := by norm_num [EPSILON_INIT]
              exact mul_le_mul_of_nonneg_left hmono h3
      show epsStep (epsIter k) = _
      rw [epsStep, if_pos hgt, hfk]
      ring

/-- Counterexample to C5 as stated: after 1424 replay calls from the
initial exploration rate, epsilon has fallen strictly below the floor
EPSILON_MIN (the guard multiplies once more just above the floor). -/
theorem dqn_epsilon_floor_counterexample : epsIter 1424 < EPSILON_MIN := by
  rw [epsIter_formula 1424 le_rfl]
  norm_num [EPSILON_MIN, EPSILON_INIT, EPSILON_DECAY]

/-- Claim C5 amended: epsilon is multiplied by the decay factor exactly
when it is above the floor, and along every sequence of replay calls it
never goes below `EPSILON_DECAY * EPSILON_MIN` (one decay step below
the floor); it can, however, end strictly below EPSILON_MIN itself. -/
theorem dqn_epsilon_decay_amended (n : ℕ) :
    EPSILON_DECAY * EPSILON_MIN ≤ epsIter n ∧
    (EPSILON_MIN < epsIter n → epsIter (n + 1) = epsIter n * EPSILON_DECAY) := by
  constructor
  · induction n with
    | zero => norm_num [epsIter, EPSILON_INIT, EPSILON_DECAY, EPSILON_MIN]
    | succ k ih =>
        show epsStep (epsIter k) ≥ _
        rw [epsStep]
        by_cases h : EPSILON_MIN < epsIter k
        · rw [if_pos h]
          calc EPSILON_DECAY * EPSILON_MIN = EPSILON_MIN * EPSILON_DECAY := mul_comm _ _
            _ ≤ epsIter k * EPSILON_DECAY :=
                mul_le_mul_of_nonneg_right h.le (by norm_num [EPSILON_DECAY])
        · rw [if_neg h]
          exact ih
  · intro h
    show epsStep (epsIter n) = _
    rw [epsStep, if_pos h]

/-- Witness for the amended C5 at the initial exploration rate. -/
theorem dqn_epsilon_decay_amended_witness :
    epsIter 1 = epsIter 0 * EPSILON_DECAY :=
  (dqn_epsilon_decay_amended 0).2 (by norm_num [epsIter, EPSILON_INIT, EPSILON_MIN])

/-- Episode-scoped and persistent agent state shared by the step cycle
of the two agents: the replay memory (a deque of experiences), the
previous state/action pair (None at the start of an episode), the
reward accumulator, the opaque network state, and the episode counter.
The unused `self.count` field is omitted. -/
structure AgentState (σ α ν : Type) where
  memory : List (Experience σ α)
  lastState : Option σ
  lastAction : Option α
  totalReward : ℚ
  nets : ν
  episodeNum : ℕ

/-- Agent state right after construction: empty memory, no previous
state or action, zero accumulated reward, episode counter 1. -/
def initAgentState {σ α ν : Type} (n0 : ν) : AgentState σ α ν :=
  ⟨[], none, none, 0, n0, 1⟩

/-- Replay memory after the store phase of a step: when a previous
state/action pair exists, the transition
(previous state, previous action, reward, current state, done) is
appended to the deque of capacity `cap`; otherwise the memory is
unchanged. -/
def stepMemory {σ α ν : Type} (cap : ℕ) (s : AgentState σ α ν)
    (state : σ) (reward : ℚ) (done : Bool) : List (Experience σ α) :=
  match s.lastState, s.lastAction with
  | some ls, some la => dequeAppend cap s.memory ⟨ls, la, reward, state, done⟩
  | _, _ => s.memory

/-- One step of the agent cycle, common to DDPGAgent.step and
DQNAgent.step: choose an action for the (preprocessed) state, store the
pending transition, learn when the memory length strictly exceeds the
batch size, record last state/action and accumulate the reward, and on
done reset the episode-scoped variables and advance the episode
counter.  Action selection is the oracle `act` (policy network plus
noise or epsilon-greedy), and learning — sampling a batch and training
the networks — is the opaque `learnFn` applied to the network state and
the current memory.  The returned action stands for the postprocessed
full action vector. -/
def agentStep {σ α ν : Type} (cap batchSize : ℕ) (act : σ → α)
    (learnFn : ν → List (Experience σ α) → ν) (s : AgentState σ α ν)
    (state : σ) (reward : ℚ) (done : Bool) : α × AgentState σ α ν :=
  let action := act state
  let mem := stepMemory cap s state reward done
  let nets := if batchSize < mem.length then learnFn s.nets mem else s.nets
  let s1 : AgentState σ α ν :=
    { memory := mem
      lastState := some state
      lastAction := some action
      totalReward := s.totalReward + reward
      nets := nets
      episodeNum := s.episodeNum }
  if done then
    (action, { s1 with
      lastState := none
      lastAction := none
      totalReward := 0
      episodeNum := s1.episodeNum + 1 })
  else (action, s1)

/-- Agent state after feeding a whole trace of (state, reward, done)
observations through the step cycle. -/
def runAgent {σ α ν : Type} (cap batchSize : ℕ) (act : σ → α)
    (learnFn : ν → List (Experience σ α) → ν) (s : AgentState σ α ν) :
    List (σ × ℚ × Bool) → AgentState σ α ν
  | [] => s
  | (st, r, d) :: rest =>
      runAgent cap batchSize act learnFn (agentStep cap batchSize act learnFn s st r d).2 rest

/-- Specification-side instrumentation: tag each observation of a trace
with its episode index, which advances right after each done=true
observation. -/
def tagEpisodes {σ : Type} (k : ℕ) : List (σ × ℚ × Bool) → List ((ℕ × σ) × ℚ × Bool)
  | [] => []
  | (st, r, d) :: rest => ((k, st), r, d) :: tagEpisodes (if d then k + 1 else k) rest

lemma agentStep_fst {σ α ν : Type} (cap batchSize : ℕ) (act : σ → α)
    (learnFn : ν → List (Experience σ α) → ν) (s : AgentState σ α ν)
    (st : σ) (r : ℚ) (d : Bool) :
    (agentStep cap batchSize act learnFn s st r d).1 = act st := by
  cases d <;> rfl

lemma agentStep_memory {σ α ν : Type} (cap batchSize : ℕ) (act : σ → α)
    (learnFn : ν → List (Experience σ α) → ν) (s : AgentState σ α ν)
    (st : σ) (r : ℚ) (d : Bool) :
    (agentStep cap batchSize act learnFn s st r d).2.memory = stepMemory cap s st r d := by
  cases d <;> rfl

lemma agentStep_nets {σ α ν : Type} (cap batchSize : ℕ) (act : σ → α)
    (learnFn : ν → List (Experience σ α) → ν) (s : AgentState σ α ν)
    (st : σ) (r : ℚ) (d : Bool) :
    (agentStep cap batchSize act learnFn s st r d).2.nets =
      if batchSize < (stepMemory cap s st r d).length then
        learnFn s.nets (stepMemory cap s st r d)
      else s.nets := by
  cases d <;> rfl

lemma agentStep_lastState {σ α ν : Type} (cap batchSize : ℕ) (act : σ → α)
    (learnFn : ν → List (Experience σ α) → ν) (s : AgentState σ α ν)
    (st : σ) (r : ℚ) (d : Bool) :
    (agentStep cap batchSize act learnFn s st r d).2.lastState =
      if d then none else some st := by
  cases d <;> rfl

lemma stepMemory_of_none {σ α ν : Type} (cap : ℕ) (s : AgentState σ α ν)
    (st : σ) (r : ℚ) (d : Bool) (h : s.lastState = none) :
    stepMemory cap s st r d = s.memory := by
  unfold stepMemory
  rw [h]

lemma stepMemory_of_some {σ α ν : Type} (cap : ℕ) (s : AgentState σ α ν)
    (st : σ) (r : ℚ) (d : Bool) (ls : σ) (la : α)
    (hls : s.lastState = some ls) (hla : s.lastAction = some la) :
    stepMemory cap s st r d = dequeAppend cap s.memory ⟨ls, la, r, st, d⟩ := by
  unfold stepMemory
  rw [hls, hla]

/-- Claim C7: a learning update happens exactly when the post-store
memory length strictly exceeds the batch size; otherwise the network
state is untouched, and in either case the step returns the chosen
action.  The statement is generic in capacity and batch size and so
covers both the DDPG and the DQN instantiation. -/
theorem step_learn_guard {σ α ν : Type} (cap batchSize : ℕ) (act : σ → α)
    (learnFn : ν → List (Experience σ α) → ν) (s : AgentState σ α ν)
    (st : σ) (r : ℚ) (d : Bool) :
    (batchSize < (stepMemory cap s st r d).length →
      (agentStep cap batchSize act learnFn s st r d).2.nets
        = learnFn s.nets (stepMemory cap s st r d)) ∧
    ((stepMemory cap s st r d).length ≤ batchSize →
      (agentStep cap batchSize act learnFn s st r d).2.nets = s.nets) ∧
    (agentStep cap batchSize act learnFn s st r d).1 = act st := by
  refine ⟨?_, ?_, agentStep_fst cap batchSize act learnFn s st r d⟩
  · intro h
    rw [agentStep_nets, if_pos h]
  · intro h
    rw [agentStep_nets, if_neg (Nat.not_lt.mpr h)]

/-- Witness for C7: with two stored experiences and batch size 1 the
network state is updated by the learning function; the action is the
oracle's choice. -/
theorem step_learn_guard_witness :
    (agentStep 5 1 (fun st => st + 7) (fun n _ => n + 1)
        (⟨[⟨0, 0, 0, 0, false⟩, ⟨1, 1, 0, 1, false⟩], none, none, 0, 0, 1⟩ :
          AgentState ℕ ℕ ℕ) 4 0 false).2.nets
      = (fun (n : ℕ) (_ : List (Experience ℕ ℕ)) => n + 1) 0
          (stepMemory 5 (⟨[⟨0, 0, 0, 0, false⟩, ⟨1, 1, 0, 1, false⟩], none, none, 0, 0, 1⟩ :
            AgentState ℕ ℕ ℕ) 4 0 false) ∧
    (agentStep 5 1 (fun st => st + 7) (fun n _ => n + 1)
        (⟨[⟨0, 0, 0, 0, false⟩, ⟨1, 1, 0, 1, false⟩], none, none, 0, 0, 1⟩ :
          AgentState ℕ ℕ ℕ) 4 0 false).1 = (fun st => st + 7) 4 :=
  ⟨(step_learn_guard 5 1 (fun st => st + 7) (fun n _ => n + 1) _ 4 0 false).1 (by decide),
   (step_learn_guard 5 1 (fun st => st + 7) (fun n _ => n + 1) _ 4 0 false).2.2⟩

/-- Invariant used for C10: the pending last state (when present)
carries the current episode tag, and every stored experience pairs two
states of one and the same episode. -/
def epTagOk {σ α ν : Type} (k : ℕ) (s : AgentState (ℕ × σ) α ν) : Prop :=
  (∀ p, s.lastState = some p → p.1 = k) ∧
  (∀ e ∈ s.memory, e.state.1 = e.nextState.1)

lemma mem_dequeAppend {γ : Type} {cap : ℕ} {buf : List γ} {x y : γ}
    (h : y ∈ dequeAppend cap buf x) : y ∈ buf ∨ y = x := by
  unfold dequeAppend at h
  have h2 := List.mem_of_mem_drop h
  rcases List.mem_append.mp h2 with h3 | h3
  · exact Or.inl h3
  · exact Or.inr (List.mem_singleton.mp h3)

lemma epTagOk_step {σ α ν : Type} (cap batchSize : ℕ) (act : ℕ × σ → α)
    (learnFn : ν → List (Experience (ℕ × σ) α) → ν) (k : ℕ)
    (s : AgentState (ℕ × σ) α ν) (st : σ) (r : ℚ) (d : Bool)
    (hok : epTagOk k s) :
    epTagOk (if d then k + 1 else k)
      (agentStep cap batchSize act learnFn s (k, st) r d).2 := by
  have hmem : ∀ e ∈ stepMemory cap s (k, st) r d, e.state.1 = e.nextState.1 := by
    intro e he
    rcases hls : s.lastState with _ | p
    · rw [stepMemory_of_none cap s (k, st) r d hls] at he
      exact hok.2 e he
    · rcases hla : s.lastAction with _ | a
      · unfold stepMemory at he
        rw [hls, hla] at he
        exact hok.2 e he
      · rw [stepMemory_of_some cap s (k, st) r d p a hls hla] at he
        rcases mem_dequeAppend he with h | rfl
        · exact hok.2 e h
        · exact hok.1 p hls
  constructor
  · intro p hp
    rw [agentStep_lastState] at hp
    cases d with
    | false =>
        rw [if_neg Bool.false_ne_true] at hp
        cases hp
        rfl
    | true =>
        rw [if_pos rfl] at hp
        cases hp
  · intro e he
    rw [agentStep_memory] at he
    exact hmem e he

lemma epTagOk_run {σ α ν : Type} (cap batchSize : ℕ) (act : ℕ × σ → α)
    (learnFn : ν → List (Experience (ℕ × σ) α) → ν) :
    ∀ (inputs : List (σ × ℚ × Bool)) (k : ℕ) (s : AgentState (ℕ × σ) α ν),
      epTagOk k s →
      ∀ e ∈ (runAgent cap batchSize act learnFn s (tagEpisodes k inputs)).memory,
        e.state.1 = e.nextState.1 := by
  intro inputs
  induction inputs with
  | nil => intro k s hok e he; exact hok.2 e he
  | cons input rest ih =>
      rcases input with ⟨st, r, d⟩
      intro k s hok e he
      rw [tagEpisodes, runAgent] at he
      exact ih (if d then k + 1 else k) _ (epTagOk_step cap batchSize act learnFn k s st r d hok)
        e he

/-- Claim C10: the step observing done=true stores its transition with
done=true and then clears last state and last action; a step with no
previous state stores nothing (so the first step of an episode stores
no transition); and consequently, over any input trace from the initial
agent state, every experience in the replay memory pairs two states of
the same episode (states tagged with their episode index). -/
theorem episode_boundary_spec {σ α ν : Type} (cap batchSize : ℕ) (act : σ → α)
    (learnFn : ν → List (Experience σ α) → ν) (s : AgentState σ α ν)
    (st : σ) (r : ℚ) (d : Bool) (n0 : ν) :
    ((agentStep cap batchSize act learnFn s st r true).2.lastState = none ∧
     (agentStep cap batchSize act learnFn s st r true).2.lastAction = none) ∧
    (∀ ls la, s.lastState = some ls → s.lastAction = some la →
      stepMemory cap s st r d = dequeAppend cap s.memory ⟨ls, la, r, st, d⟩) ∧
    (s.lastState = none → stepMemory cap s st r d = s.memory) ∧
    (∀ (act2 : ℕ × σ → α) (learnFn2 : ν → List (Experience (ℕ × σ) α) → ν)
        (inputs : List (σ × ℚ × Bool)),
      ∀ e ∈ (runAgent cap batchSize act2 learnFn2 (initAgentState n0)
          (tagEpisodes 0 inputs)).memory,
        e.state.1 = e.nextState.1) := by
  refine ⟨⟨rfl, rfl⟩, ?_, ?_, ?_⟩
  · intro ls la hls hla
    unfold stepMemory
    rw [hls, hla]
  · intro hls
    unfold stepMemory
    rw [hls]
  · intro act2 learnFn2 inputs e he
    refine epTagOk_run cap batchSize act2 learnFn2 inputs 0 (initAgentState n0) ?_ e he
    exact ⟨fun p hp => Option.noConfusion hp, fun e he => absurd he (List.not_mem_nil e)⟩

/-- Witness for C10: a step whose previous state is empty leaves the
memory unchanged, at a concrete agent state. -/
theorem episode_boundary_spec_witness :
    stepMemory 5 (⟨[⟨0, 0, 0, 0, false⟩], none, some 3, 0, 0, 1⟩ : AgentState ℕ ℕ ℕ) 4 2 false
      = [⟨0, 0, 0, 0, false⟩] :=
  (episode_boundary_spec 5 2 id (fun n _ => n) _ 4 2 false 0).2.2.1 rfl

/-- Claim C6: when the buffer holds at least `batchSize` experiences,
sampling returns exactly `batchSize` experiences drawn without
replacement from the stored ones (a sub-permutation of the memory, no
ordering guarantee); when it holds fewer, sampling fails with `none`.
The random draw is an oracle permutation of the memory. -/
theorem replayBuffer_sample_spec {σ α : Type} (b : ReplayBuffer σ α) (batchSize : ℕ)
    (shuffled : List (Experience σ α)) (hperm : List.Perm shuffled b.memory) :
    (batchSize ≤ b.memory.length →
      ∃ r, b.sample batchSize shuffled = some r ∧ r.length = batchSize ∧
        List.Subperm r b.memory) ∧
    (b.memory.length < batchSize → b.sample batchSize shuffled = none) := by
  constructor
  · intro h
    refine ⟨shuffled.take batchSize, ?_, ?_, ?_⟩
    · unfold ReplayBuffer.sample
      rw [if_pos h]
    · rw [List.length_take, hperm.length_eq]
      omega
    · exact ((List.take_sublist batchSize shuffled).subperm).trans hperm.subperm
  · intro h
    unfold ReplayBuffer.sample
    rw [if_neg (by omega)]

/-- Witness for C6: sampling 2 of 3 stored experiences through a
concrete shuffle succeeds; sampling 4 fails. -/
theorem replayBuffer_sample_spec_witness :
    (∃ r, (ReplayBuffer.mk 3
        [⟨0, 0, 0, 0, false⟩, ⟨1, 1, 0, 1, false⟩, ⟨2, 2, 0, 2, true⟩] :
          ReplayBuffer ℕ ℕ).sample 2
        [⟨2, 2, 0, 2, true⟩, ⟨0, 0, 0, 0, false⟩, ⟨1, 1, 0, 1, false⟩] = some r ∧
      r.length = 2 ∧
      List.Subperm r [⟨0, 0, 0, 0, false⟩, ⟨1, 1, 0, 1, false⟩, ⟨2, 2, 0, 2, true⟩]) ∧
    (ReplayBuffer.mk 3
        [⟨0, 0, 0, 0, false⟩, ⟨1, 1, 0, 1, false⟩, ⟨2, 2, 0, 2, true⟩] :
          ReplayBuffer ℕ ℕ).sample 4
        [⟨2, 2, 0, 2, true⟩, ⟨0, 0, 0, 0, false⟩, ⟨1, 1, 0, 1, false⟩] = none := by
  have hperm : List.Perm
      ([⟨2, 2, 0, 2, true⟩, ⟨0, 0, 0, 0, false⟩, ⟨1, 1, 0, 1, false⟩] :
        List (Experience ℕ ℕ))
      [⟨0, 0, 0, 0, false⟩, ⟨1, 1, 0, 1, false⟩, ⟨2, 2, 0, 2, true⟩] := by
    exact (List.Perm.swap _ _ _).trans (List.Perm.cons _ (List.Perm.swap _ _ _))
  constructor
  · exact (replayBuffer_sample_spec _ 2 _ hperm).1 (by decide)
  · exact (replayBuffer_sample_spec _ 4 _ hperm).2 (by decide)

end QuadRL
